import Mathlib

/-!
Shallow embedding of the Neo4j "saved places" ingestion pipeline
(seeder script: normalizer, batcher, constraint initializer, graph writer,
orchestrator) together with proofs of its specified properties.

JavaScript runtime values are modelled by `JSValue`; the effect of the
Cypher upsert query on the graph store is modelled by a state-transition
function on `GraphState`; external effects (file read, constraint
statements, batch transactions) are modelled by explicit oracles.
-/

/-- A JavaScript number: either a finite value or one of the non-finite
numbers (NaN, ±Infinity).  Finite values are represented by integers,
which is enough for every property stated here (the pipeline never does
arithmetic on coordinates, it only tests finiteness and passes them
through). -/
inductive JSNum where
  | finite (val : Int)
  | nan
  | inf (pos : Bool)
deriving DecidableEq, Repr

/-- A JavaScript runtime value as the seeder script can observe it:
null, undefined, boolean, number, string, array or object.  Arrays and
objects are encoded as cons-chains inside the single inductive (so that
equality stays structurally decidable): a well-formed array is an
`arrCons` chain ending in `arrNil`, and a well-formed object is an
`objCons` chain of string-keyed fields ending in `objNil`. -/
inductive JSValue where
  | null
  | undefined
  | bool (b : Bool)
  | num (n : JSNum)
  | str (s : String)
  | arrNil
  | arrCons (head tail : JSValue)
  | objNil
  | objCons (key : String) (val tail : JSValue)
deriving DecidableEq, Repr

namespace JSValue

/-- Builds an array value from a list of element values. -/
def arr : List JSValue → JSValue
  | [] => .arrNil
  | x :: xs => .arrCons x (arr xs)

/-- Builds an object value from a list of string-keyed fields. -/
def obj : List (String × JSValue) → JSValue
  | [] => .objNil
  | (k, v) :: fs => .objCons k v (obj fs)

/-- JavaScript truthiness: `null`, `undefined`, `false`, `0`, `NaN` and
the empty string are falsy; every other value (including any array or
object) is truthy. -/
def truthy : JSValue → Bool
  | .null => false
  | .undefined => false
  | .bool b => b
  | .num (.finite v) => v != 0
  | .num .nan => false
  | .num (.inf _) => true
  | .str s => s != ""
  | _ => true

/-- Property lookup on a value that is known not to be null/undefined:
objects yield the named field (or `undefined` when absent); primitives
and arrays yield `undefined` for the property names the script reads. -/
def fieldOf : JSValue → String → JSValue
  | .objCons k v t, key => if k = key then v else fieldOf t key
  | _, _ => .undefined

/-- The optional-chaining access `v?.k`: yields `undefined` when `v` is
nullish, otherwise reads the property. -/
def optChain (v : JSValue) (k : String) : JSValue :=
  match v with
  | .null => .undefined
  | .undefined => .undefined
  | _ => v.fieldOf k

/-- The nullish-coalescing operator `v ?? d`. -/
def coalesce (v d : JSValue) : JSValue :=
  match v with
  | .null => d
  | .undefined => d
  | _ => v

/-- The logical-or defaulting idiom `v || d`. -/
def orDefault (v d : JSValue) : JSValue :=
  if v.truthy then v else d

/-- A plain (unguarded) property access `v.k`: throws a TypeError when
`v` is null or undefined, otherwise reads the property. -/
def access (v : JSValue) (k : String) : Except String JSValue :=
  match v with
  | .null => .error ("TypeError: cannot read " ++ k ++ " of null")
  | .undefined => .error ("TypeError: cannot read " ++ k ++ " of undefined")
  | _ => .ok (v.fieldOf k)

/-- `Array.isArray`. -/
def isArray : JSValue → Bool
  | .arrNil => true
  | .arrCons _ _ => true
  | _ => false

/-- Array element at a given position (as read by array destructuring),
`undefined` past the end. -/
def elemAt : JSValue → Nat → JSValue
  | .arrCons h _, 0 => h
  | .arrCons _ t, n + 1 => elemAt t n
  | _, _ => .undefined

/-- The elements of an array value as a Lean list (iteration order). -/
def items : JSValue → List JSValue
  | .arrCons h t => h :: items t
  | _ => []

end JSValue

/-! ## Normalizer -/

/-- `typeof item === 'number' && Number.isFinite(item)`. -/
def isFiniteNumber : JSValue → Bool
  | .num (.finite _) => true
  | _ => false

/-- `isValidCoordinate`: the value is an array, has exactly two
elements, and every element is a finite number. -/
def isValidCoordinate (value : JSValue) : Bool :=
  value.isArray && value.items.length == 2 && value.items.all isFiniteNumber

/-- The canonical place record produced by `normalizePlace`; its fields
are exactly the parameters passed to the upsert query. -/
structure PlaceRecord where
  googleMapsUrl : JSValue
  name : JSValue
  description : JSValue
  address : JSValue
  type : JSValue
  latitude : JSValue
  longitude : JSValue
  savedList : JSValue
  visited : JSValue
  visitedDate : JSValue
  tabelogRating : JSValue
  dateSaved : JSValue
  prefecture : JSValue
deriving DecidableEq, Repr

/-- `normalizePlace`: maps a raw feature to a canonical place record, or
to `none` (the JS `null` rejection marker) when the display name or the
identity key is falsy.  Unguarded property accesses run in `Except`, so
a thrown TypeError would surface as `.error`. -/
def normalizePlace (feature : JSValue) : Except String (Option PlaceRecord) := do
  let geometry := (feature.optChain "geometry").coalesce (.obj [])
  let properties := (feature.optChain "properties").coalesce (.obj [])
  let location := (← properties.access "location").coalesce (.obj [])
  let nameVal ← location.access "name"
  if !nameVal.truthy then
    return none
  let coordinates := (← geometry.access "coordinates").coalesce (.arr [])
  let hasCoordinates := isValidCoordinate coordinates
  let pair := if hasCoordinates then coordinates else .arr [.null, .null]
  let longitude := pair.elemAt 0
  let latitude := pair.elemAt 1
  let googleMapsUrl := (← properties.access "google_maps_url").coalesce .null
  if !googleMapsUrl.truthy then
    return none
  let prefecture := (← properties.access "prefecture").orDefault .null
  let category := (← properties.access "category").orDefault (.str "place")
  let notes := (← properties.access "notes").orDefault .null
  let addressVal ← location.access "address"
  return some
    { googleMapsUrl := googleMapsUrl
      name := nameVal
      description := notes.coalesce (addressVal.coalesce .null)
      address := addressVal.coalesce .null
      type := category
      latitude := latitude
      longitude := longitude
      savedList := (← properties.access "saved_list").coalesce .null
      visited := (← properties.access "visited").coalesce .null
      visitedDate := (← properties.access "visited_date").coalesce .null
      tabelogRating := (← properties.access "tabelog_rating").coalesce .null
      dateSaved := (← properties.access "date").coalesce .null
      prefecture := prefecture }

/-- Evaluated (exception-free) form of `normalizePlace`, with every
guarded access reduced to a total field lookup; the theorem
`normalizePlace_ok` proves it agrees with `normalizePlace` on every
input (in particular, that no TypeError can occur). -/
def normalizePlaceFun (feature : JSValue) : Option PlaceRecord :=
  let geometry := (feature.optChain "geometry").coalesce (.obj [])
  let properties := (feature.optChain "properties").coalesce (.obj [])
  let location := (properties.fieldOf "location").coalesce (.obj [])
  let nameVal := location.fieldOf "name"
  if !nameVal.truthy then none
  else
    let coordinates := (geometry.fieldOf "coordinates").coalesce (.arr [])
    let hasCoordinates := isValidCoordinate coordinates
    let pair := if hasCoordinates then coordinates else .arr [.null, .null]
    let longitude := pair.elemAt 0
    let latitude := pair.elemAt 1
    let googleMapsUrl := (properties.fieldOf "google_maps_url").coalesce .null
    if !googleMapsUrl.truthy then none
    else
      let prefecture := (properties.fieldOf "prefecture").orDefault .null
      let category := (properties.fieldOf "category").orDefault (.str "place")
      let notes := (properties.fieldOf "notes").orDefault .null
      let addressVal := location.fieldOf "address"
      some
        { googleMapsUrl := googleMapsUrl
          name := nameVal
          description := notes.coalesce (addressVal.coalesce .null)
          address := addressVal.coalesce .null
          type := category
          latitude := latitude
          longitude := longitude
          savedList := (properties.fieldOf "saved_list").coalesce .null
          visited := (properties.fieldOf "visited").coalesce .null
          visitedDate := (properties.fieldOf "visited_date").coalesce .null
          tabelogRating := (properties.fieldOf "tabelog_rating").coalesce .null
          dateSaved := (properties.fieldOf "date").coalesce .null
          prefecture := prefecture }

/-- The display-name value the normalizer tests, following the code's
access path: `((feature?.properties ?? {}).location ?? {}).name`. -/
def displayNameOf (feature : JSValue) : JSValue :=
  ((((feature.optChain "properties").coalesce (.obj [])).fieldOf
    "location").coalesce (.obj [])).fieldOf "name"

/-- The identity-key value the normalizer tests:
`(feature?.properties ?? {}).google_maps_url ?? null`. -/
def identityKeyOf (feature : JSValue) : JSValue :=
  (((feature.optChain "properties").coalesce (.obj [])).fieldOf
    "google_maps_url").coalesce .null

/-- The coordinate value the normalizer validates:
`(feature?.geometry ?? {}).coordinates ?? []`. -/
def coordinatesOf (feature : JSValue) : JSValue :=
  (((feature.optChain "geometry").coalesce (.obj [])).fieldOf
    "coordinates").coalesce (.arr [])

/-! ## Batcher -/

def CHUNK_SIZE : Nat := 100

/-- Fuelled worker for `chunk`; the fuel (initially the collection
length) only ensures structural termination of the index loop and is
never exhausted when `0 < size`. -/
def chunkGo (size : Nat) : Nat → List α → List (List α)
  | _, [] => []
  | 0, _ :: _ => []
  | fuel + 1, xs => xs.take size :: chunkGo size fuel (xs.drop size)

/-- `chunk`: splits a collection into consecutive slices of `size`
elements (the last slice may be shorter).  For `size = 0` the JS loop
would not terminate; the script only ever calls it with
`CHUNK_SIZE = 100`, and that degenerate case is mapped to `[]`. -/
def chunk (collection : List α) (size : Nat) : List (List α) :=
  if size = 0 then [] else chunkGo size collection.length collection

/-! ## Graph store model

The Neo4j store is modelled by the multiset of `Place` nodes (kept as a
list), the `Region` node names, and the `HAS_PLACE` edges as
(region name, place identity key) pairs. -/

/-- A `Place` node: its identifying property plus the properties the
upsert query's `SET` clause writes. -/
structure PlaceNode where
  googleMapsUrl : JSValue
  name : JSValue
  type : JSValue
  description : JSValue
  address : JSValue
  latitude : JSValue
  longitude : JSValue
  prefecture : JSValue
  savedList : JSValue
  visited : JSValue
  visitedDate : JSValue
  tabelogRating : JSValue
  dateSaved : JSValue
deriving DecidableEq, Repr

/-- The node contents written by the query's `SET` clause for a given
parameter record: every property is overwritten with the record's
value. -/
def placeNodeOf (r : PlaceRecord) : PlaceNode :=
  { googleMapsUrl := r.googleMapsUrl
    name := r.name
    type := r.type
    description := r.description
    address := r.address
    latitude := r.latitude
    longitude := r.longitude
    prefecture := r.prefecture
    savedList := r.savedList
    visited := r.visited
    visitedDate := r.visitedDate
    tabelogRating := r.tabelogRating
    dateSaved := r.dateSaved }

/-- The graph store state. -/
structure GraphState where
  places : List PlaceNode
  regions : List JSValue
  hasPlaceEdges : List (JSValue × JSValue)
deriving DecidableEq, Repr

def GraphState.empty : GraphState := { places := [], regions := [], hasPlaceEdges := [] }

/-- Whether some `Place` node carries the given identity key. -/
def hasPlaceKey (ps : List PlaceNode) (k : JSValue) : Bool :=
  ps.any (fun n => n.googleMapsUrl == k)

/-- The `SET` clause's effect on one matched node: a node carrying the
record's key has every property overwritten, any other node is left
alone. -/
def overwritePlace (r : PlaceRecord) (n : PlaceNode) : PlaceNode :=
  if n.googleMapsUrl == r.googleMapsUrl then placeNodeOf r else n

/-- Effect of `MERGE (place:Place {googleMapsUrl: $googleMapsUrl}) SET …`
on the node set: if a node with the key exists it is matched and all its
properties overwritten, otherwise a new node is created. -/
def mergeSetPlace (ps : List PlaceNode) (r : PlaceRecord) : List PlaceNode :=
  if hasPlaceKey ps r.googleMapsUrl then
    ps.map (overwritePlace r)
  else
    ps ++ [placeNodeOf r]

/-- Effect of the `FOREACH`-guarded `MERGE (region:Region {name: $prefecture})`:
nothing when the prefecture parameter is null, otherwise
create-if-absent of the region name. -/
def mergeRegion (regs : List JSValue) (r : PlaceRecord) : List JSValue :=
  if r.prefecture == .null then regs
  else if regs.contains r.prefecture then regs
  else regs ++ [r.prefecture]

/-- Effect of the `FOREACH`-guarded `MERGE (region)-[:HAS_PLACE]->(place)`:
nothing when the prefecture parameter is null, otherwise create-if-absent
of the (region, place) edge. -/
def mergeHasPlace (es : List (JSValue × JSValue)) (r : PlaceRecord) :
    List (JSValue × JSValue) :=
  if r.prefecture == .null then es
  else if es.contains (r.prefecture, r.googleMapsUrl) then es
  else es ++ [(r.prefecture, r.googleMapsUrl)]

/-- Effect of one `tx.run(upsertPlaceQuery, place)` on the store. -/
def upsertPlaceQuery (s : GraphState) (r : PlaceRecord) : GraphState :=
  { places := mergeSetPlace s.places r
    regions := mergeRegion s.regions r
    hasPlaceEdges := mergeHasPlace s.hasPlaceEdges r }

/-- Effect of one committed batch transaction: the query runs once per
record of the batch, in order. -/
def runTx (s : GraphState) (batch : List PlaceRecord) : GraphState :=
  batch.foldl upsertPlaceQuery s

/-- The first `Place` node carrying the given identity key, if any
(with at most one node per key this is the node for that key). -/
def findPlace (ps : List PlaceNode) (k : JSValue) : Option PlaceNode :=
  ps.find? (fun n => n.googleMapsUrl == k)

/-- Number of `Place` nodes carrying the given identity key. -/
def countKey (ps : List PlaceNode) (k : JSValue) : Nat :=
  ps.countP (fun n => n.googleMapsUrl == k)

/-- The last record of the list whose identity key is `k`, if any. -/
def lastWith (rs : List PlaceRecord) (k : JSValue) : Option PlaceRecord :=
  match rs with
  | [] => none
  | r :: rest =>
    match lastWith rest k with
    | some r' => some r'
    | none => if r.googleMapsUrl = k then some r else none

/-- The raw feature sequence `main` extracts from a parsed payload:
`Array.isArray(payload.features) ? payload.features : []` (for a payload
on which the access does not throw). -/
def featureListOf (payload : JSValue) : List JSValue :=
  if (payload.fieldOf "features").isArray then (payload.fieldOf "features").items else []

/-! ## Graph writer loop and orchestrator

External effects are driven by oracles: a batch-failure oracle maps a
batch index to `some errorMessage` when the store would abort that
batch's transaction (atomically, leaving no partial effect of it), and a
constraint-failure oracle does the same per constraint statement. -/

/-- Console line printed after a batch commits (0-based index `idx`). -/
def insertedBatchLine (idx total : Nat) : String :=
  "Inserted batch " ++ toString (idx + 1) ++ "/" ++ toString total

/-- Outcome of the graph-writer loop: resulting store state, number of
write transactions issued, console lines printed, and the error of the
failed transaction, if any. -/
structure WriteOutcome where
  state : GraphState
  txIssued : Nat
  log : List String
  failure : Option String
deriving DecidableEq, Repr

/-- The `for (const [index, batch] of batches.entries())` loop of
`upsertPlaces`: issues one transaction per batch in order; a failed
transaction has no effect on the store and stops the loop, surfacing its
error. -/
def runBatches (bfails : Nat → Option String) (total : Nat) :
    Nat → GraphState → List (List PlaceRecord) → WriteOutcome
  | _, s, [] => { state := s, txIssued := 0, log := [], failure := none }
  | idx, s, batch :: rest =>
    match bfails idx with
    | some msg => { state := s, txIssued := 1, log := [], failure := some msg }
    | none =>
      let out := runBatches bfails total (idx + 1) (runTx s batch) rest
      { state := out.state
        txIssued := out.txIssued + 1
        log := insertedBatchLine idx total :: out.log
        failure := out.failure }

/-- `upsertPlaces`: chunks the records with `CHUNK_SIZE` and writes one
transaction per batch. -/
def upsertPlaces (bfails : Nat → Option String) (s : GraphState)
    (places : List PlaceRecord) : WriteOutcome :=
  let batches := chunk places CHUNK_SIZE
  runBatches bfails batches.length 0 s batches

/-! ## Constraint initializer -/

/-- The two `CREATE CONSTRAINT IF NOT EXISTS` statements. -/
def constraintStatements : List String :=
  ["CREATE CONSTRAINT IF NOT EXISTS FOR (p:Place) REQUIRE p.googleMapsUrl IS UNIQUE",
   "CREATE CONSTRAINT IF NOT EXISTS FOR (r:Region) REQUIRE r.name IS UNIQUE"]

/-- The `for (const statement of statements)` loop of
`ensureConstraints`: issues each statement in order, stopping at the
first failure; returns the number of statements issued and the failure,
if any. -/
def runStatements (cfails : Nat → Option String) :
    Nat → List String → Nat × Option String
  | _, [] => (0, none)
  | idx, _ :: rest =>
    match cfails idx with
    | some msg => (1, some msg)
    | none =>
      let out := runStatements cfails (idx + 1) rest
      (out.fst + 1, out.snd)

def ensureConstraints (cfails : Nat → Option String) : Nat × Option String :=
  runStatements cfails 0 constraintStatements

/-! ## Orchestrator (`main`) -/

/-- Result of one whole pipeline run: the process exit code, the number
of constraint statements and write transactions issued, the resulting
store state, and the console output. -/
structure RunResult where
  exitCode : Nat
  stmtsIssued : Nat
  txIssued : Nat
  state : GraphState
  log : List String
deriving DecidableEq, Repr

def loadingLine : String := "Loading saved places data from <DATA_PATH>"

def noPlacesLine : String := "No places to import. Exiting."

def preparingLine : String := "Preparing constraints..."

def seedingLine (n : Nat) : String := "Seeding " ++ toString n ++ " places..."

def completedLine : String := "Seeding completed successfully."

/-- The `main().catch(...)` handler's console line. -/
def seedingFailedLine (msg : String) : String := "Seeding failed: " ++ msg

/-- Maps each feature through `normalizePlace` (the `.map` call),
propagating a thrown error. -/
def normalizeAll : List JSValue → Except String (List (Option PlaceRecord))
  | [] => .ok []
  | f :: rest => do
    let r ← normalizePlace f
    let rs ← normalizeAll rest
    pure (r :: rs)

/-- One whole run of `main` followed by the `main().catch` handler.
`load` is the oracle for `readFile` + `JSON.parse` (its `.error` case
covers an unreadable file and malformed content), `cfails` the
constraint-statement failure oracle, `bfails` the batch-transaction
failure oracle, and `s0` the store state the run starts from. -/
def mainRun (load : Except String JSValue) (cfails bfails : Nat → Option String)
    (s0 : GraphState) : RunResult :=
  match load with
  | .error e =>
    { exitCode := 1, stmtsIssued := 0, txIssued := 0, state := s0
      log := [loadingLine, seedingFailedLine e] }
  | .ok payload =>
    match payload.access "features" with
    | .error e =>
      { exitCode := 1, stmtsIssued := 0, txIssued := 0, state := s0
        log := [loadingLine, seedingFailedLine e] }
    | .ok featuresVal =>
      let features := if featuresVal.isArray then featuresVal.items else []
      match normalizeAll features with
      | .error e =>
        { exitCode := 1, stmtsIssued := 0, txIssued := 0, state := s0
          log := [loadingLine, seedingFailedLine e] }
      | .ok mapped =>
        let normalized := mapped.filterMap id
        if normalized.isEmpty then
          { exitCode := 0, stmtsIssued := 0, txIssued := 0, state := s0
            log := [loadingLine, noPlacesLine] }
        else
          let cresult := ensureConstraints cfails
          match cresult.snd with
          | some msg =>
            { exitCode := 1, stmtsIssued := cresult.fst, txIssued := 0, state := s0
              log := [loadingLine, preparingLine, seedingFailedLine msg] }
          | none =>
            let w := upsertPlaces bfails s0 normalized
            match w.failure with
            | some msg =>
              { exitCode := 1, stmtsIssued := cresult.fst, txIssued := w.txIssued
                state := w.state
                log := loadingLine :: preparingLine :: seedingLine normalized.length ::
                  (w.log ++ [seedingFailedLine msg]) }
            | none =>
              { exitCode := 0, stmtsIssued := cresult.fst, txIssued := w.txIssued
                state := w.state
                log := loadingLine :: preparingLine :: seedingLine normalized.length ::
                  (w.log ++ [completedLine]) }


/-! ## Concrete sample values (used to instantiate theorems) -/

/-- A well-formed raw feature with a name, identity key, valid
coordinate pair, and prefecture. -/
def sampleFeature : JSValue :=
  .obj [("geometry", .obj [("coordinates",
            .arr [.num (.finite 139), .num (.finite 35)])]),
        ("properties", .obj [
            ("location", .obj [("name", .str "Cafe"),
                               ("address", .str "Tokyo 1-2-3")]),
            ("google_maps_url", .str "https://maps.example/cafe"),
            ("prefecture", .str "Tokyo")])]

/-- The canonical record `normalizePlace` produces for `sampleFeature`. -/
def sampleRecord : PlaceRecord :=
  { googleMapsUrl := .str "https://maps.example/cafe"
    name := .str "Cafe"
    description := .str "Tokyo 1-2-3"
    address := .str "Tokyo 1-2-3"
    type := .str "place"
    latitude := .num (.finite 35)
    longitude := .num (.finite 139)
    savedList := .null
    visited := .null
    visitedDate := .null
    tabelogRating := .null
    dateSaved := .null
    prefecture := .str "Tokyo" }

/-- A raw feature with a minimal accepted record and no region value. -/
def plainFeature : JSValue :=
  .obj [("properties", .obj [
            ("location", .obj [("name", .str "A")]),
            ("google_maps_url", .str "https://maps.example/a")])]

/-- The canonical record `normalizePlace` produces for `plainFeature`. -/
def plainRecord : PlaceRecord :=
  { googleMapsUrl := .str "https://maps.example/a"
    name := .str "A"
    description := .null
    address := .null
    type := .str "place"
    latitude := .null
    longitude := .null
    savedList := .null
    visited := .null
    visitedDate := .null
    tabelogRating := .null
    dateSaved := .null
    prefecture := .null }

/-- A raw feature whose display name is the number `0`: present, not
null, and not the empty string, yet falsy. -/
def zeroNameFeature : JSValue :=
  .obj [("properties", .obj [
            ("location", .obj [("name", .num (.finite 0))]),
            ("google_maps_url", .str "https://maps.example/zero")])]

/-- A parsed payload whose feature collection is the single
`sampleFeature`. -/
def payloadSingle : JSValue := .obj [("features", .arr [sampleFeature])]

/-- A parsed payload with 101 copies of `plainFeature`: two batches. -/
def payload101 : JSValue :=
  .obj [("features", JSValue.arr (List.replicate 101 plainFeature))]

/-! # Theorems

## Basic facts about the JS value operations -/

theorem JSValue.coalesce_ne_nullish (v d : JSValue)
    (h1 : d ≠ .null) (h2 : d ≠ .undefined) :
    v.coalesce d ≠ .null ∧ v.coalesce d ≠ .undefined := by
  cases v <;> simp [JSValue.coalesce] <;> exact ⟨h1, h2⟩

theorem JSValue.access_ok (v : JSValue) (k : String)
    (h1 : v ≠ .null) (h2 : v ≠ .undefined) :
    v.access k = .ok (v.fieldOf k) := by
  cases v <;> simp_all [JSValue.access]

theorem JSValue.coalesce_access (v d : JSValue) (k : String)
    (h1 : d ≠ .null) (h2 : d ≠ .undefined) :
    (v.coalesce d).access k = .ok ((v.coalesce d).fieldOf k) := by
  obtain ⟨g1, g2⟩ := JSValue.coalesce_ne_nullish v d h1 h2
  exact JSValue.access_ok _ k g1 g2

theorem JSValue.coalesce_objDefault_access (v : JSValue) (k : String) :
    (v.coalesce (.obj [])).access k = .ok ((v.coalesce (.obj [])).fieldOf k) :=
  JSValue.coalesce_access v _ k (by simp [JSValue.obj]) (by simp [JSValue.obj])

theorem ok_bind_eq (a : α) (f : α → Except ε β) :
    (Except.ok a : Except ε α) >>= f = f a := rfl

/-! ## Normalizer characterization -/

/-- `normalizePlace` never throws, and evaluates to the exception-free
form `normalizePlaceFun`. -/
theorem normalizePlace_ok (feature : JSValue) :
    normalizePlace feature = .ok (normalizePlaceFun feature) := by
  unfold normalizePlace normalizePlaceFun
  simp only [JSValue.coalesce_objDefault_access, ok_bind_eq]
  split
  · rfl
  · split <;> rfl

/-- The normalizer rejects a feature exactly when its display name or
its identity key is falsy. -/
theorem normalizePlaceFun_eq_none_iff (feature : JSValue) :
    normalizePlaceFun feature = none ↔
      ((displayNameOf feature).truthy = false ∨
       (identityKeyOf feature).truthy = false) := by
  unfold normalizePlaceFun displayNameOf identityKeyOf
  simp only [Bool.not_eq_true']
  split
  · next h => simp_all
  · next h =>
    split
    · next h' => simp_all
    · next h' => simp_all

theorem normalizeAll_eq (features : List JSValue) :
    normalizeAll features = .ok (features.map normalizePlaceFun) := by
  induction features with
  | nil => rfl
  | cons f rest ih => simp [normalizeAll, normalizePlace_ok, ih, ok_bind_eq]

/-- If a value passes `isValidCoordinate`, both its first two elements
are finite numbers. -/
theorem isValidCoordinate_elems (v : JSValue) (h : isValidCoordinate v = true) :
    isFiniteNumber (v.elemAt 0) = true ∧ isFiniteNumber (v.elemAt 1) = true := by
  cases v <;> simp_all [isValidCoordinate, JSValue.isArray, JSValue.items, JSValue.elemAt]
  rename_i x u
  cases u <;> simp_all [JSValue.items, JSValue.elemAt]

/-- A finite number is not the null value. -/
theorem isFiniteNumber_ne_null (v : JSValue) (h : isFiniteNumber v = true) :
    v ≠ .null := by
  cases v <;> simp_all [isFiniteNumber]

/-- Latitude and longitude of an accepted record: both come from the
validated coordinate pair, or are both null. -/
theorem normalizePlaceFun_coords (feature : JSValue) (r : PlaceRecord)
    (h : normalizePlaceFun feature = some r) :
    r.longitude =
      (if isValidCoordinate (coordinatesOf feature) then (coordinatesOf feature).elemAt 0
       else .null) ∧
    r.latitude =
      (if isValidCoordinate (coordinatesOf feature) then (coordinatesOf feature).elemAt 1
       else .null) := by
  unfold normalizePlaceFun coordinatesOf at *
  simp only [Bool.not_eq_true'] at h
  split at h
  · simp_all
  · split at h
    · simp_all
    · rw [Option.some.injEq] at h
      subst h
      constructor <;> split <;> simp_all [JSValue.arr, JSValue.elemAt]

/-- For lists of optional records, the accepted count plus the rejected
count equals the total count. -/
theorem filterMap_countP_total (l : List (Option PlaceRecord)) :
    (l.filterMap id).length + l.countP (fun o => o.isNone) = l.length := by
  induction l with
  | nil => rfl
  | cons o rest ih =>
    cases o <;> simp_all [List.countP_cons] <;> omega

/-! ## Claim C10 — the Normalizer is total -/

/-- C10: the Normalizer is total on arbitrary input values: for every
raw feature — including null/undefined, or one missing the geometry,
properties, location, or coordinates fields entirely — `normalizePlace`
returns either a canonical record or the rejection marker (JS null,
modelled as `none`) without throwing: the result is always `.ok`, never
a propagated TypeError. -/
theorem claim_C10_normalizer_total (feature : JSValue) :
    ∃ result : Option PlaceRecord, normalizePlace feature = .ok result :=
  ⟨normalizePlaceFun feature, normalizePlace_ok feature⟩

/-! ## Claim C3 — coordinate handling -/

/-- C3: for every raw feature accepted by the normalizer, if the
coordinate field (`geometry.coordinates ?? []`) is exactly a two-element
array of finite numbers then the record's longitude is its first element
and its latitude its second (both finite numbers); otherwise both
latitude and longitude are null.  A record never has exactly one of
latitude/longitude present. -/
theorem claim_C3_coordinates (feature : JSValue) (r : PlaceRecord)
    (h : normalizePlace feature = .ok (some r)) :
    (isValidCoordinate (coordinatesOf feature) = true →
      r.longitude = (coordinatesOf feature).elemAt 0 ∧
      r.latitude = (coordinatesOf feature).elemAt 1 ∧
      isFiniteNumber r.longitude = true ∧
      isFiniteNumber r.latitude = true) ∧
    (isValidCoordinate (coordinatesOf feature) = false →
      r.latitude = .null ∧ r.longitude = .null) ∧
    (r.latitude = .null ↔ r.longitude = .null) := by
  rw [normalizePlace_ok feature] at h
  rw [Except.ok.injEq] at h
  obtain ⟨hlng, hlat⟩ := normalizePlaceFun_coords feature r h
  by_cases hv : isValidCoordinate (coordinatesOf feature) = true
  · obtain ⟨f0, f1⟩ := isValidCoordinate_elems _ hv
    refine ⟨fun _ => ⟨by simp_all, by simp_all, by simp_all, by simp_all⟩,
      fun hc => by simp_all, ?_⟩
    rw [hlng, hlat, if_pos hv, if_pos hv]
    constructor
    · intro hc; exact absurd hc (isFiniteNumber_ne_null _ f1)
    · intro hc; exact absurd hc (isFiniteNumber_ne_null _ f0)
  · rw [Bool.not_eq_true] at hv
    refine ⟨fun hc => by simp_all, fun _ => ⟨by simp_all, by simp_all⟩, by simp_all⟩

/-- Witness for C3 at a concrete accepted feature with a valid
coordinate pair. -/
theorem claim_C3_coordinates_witness :
    sampleRecord.latitude = .null ↔ sampleRecord.longitude = .null :=
  (claim_C3_coordinates sampleFeature sampleRecord rfl).2.2

/-! ## Claim C2 — rejection rule, counts, ordering -/

/-- C2 counterexample: the claim says the Normalizer rejects exactly
those records whose display name is missing or empty or whose identity
key is missing or empty.  This feature's display name is the number 0 —
present, not null/undefined, and not the empty string — and its identity
key is a non-empty string, yet the Normalizer rejects it (JS truthiness
also rejects 0, false and NaN names). -/
theorem claim_C2_counterexample :
    normalizePlace zeroNameFeature = .ok none ∧
    displayNameOf zeroNameFeature = .num (.finite 0) ∧
    displayNameOf zeroNameFeature ≠ .null ∧
    displayNameOf zeroNameFeature ≠ .undefined ∧
    displayNameOf zeroNameFeature ≠ .str "" ∧
    identityKeyOf zeroNameFeature = .str "https://maps.example/zero" :=
  ⟨rfl, rfl, by decide, by decide, by decide, rfl⟩

/-- C2 (amended): the Normalizer rejects exactly those records whose
display name or identity key is falsy (missing, null, the empty string,
or another falsy value such as 0, false or NaN); the accepted count plus
the rejected count equals the total input count; and the accepted output
preserves the input order (mapping and filtering distribute over
concatenation). -/
theorem claim_C2_normalizer_rejection :
    (∀ feature : JSValue, normalizePlace feature = .ok none ↔
      ((displayNameOf feature).truthy = false ∨
       (identityKeyOf feature).truthy = false)) ∧
    (∀ (features : List JSValue) (mapped : List (Option PlaceRecord)),
      normalizeAll features = .ok mapped →
      (mapped.filterMap id).length + mapped.countP (fun o => o.isNone) =
        features.length) ∧
    (∀ (fs gs : List JSValue) (ms ns : List (Option PlaceRecord)),
      normalizeAll fs = .ok ms → normalizeAll gs = .ok ns →
      normalizeAll (fs ++ gs) = .ok (ms ++ ns) ∧
      (ms ++ ns).filterMap id = ms.filterMap id ++ ns.filterMap id) := by
  refine ⟨fun feature => ?_, fun features mapped h => ?_, fun fs gs ms ns h1 h2 => ?_⟩
  · rw [normalizePlace_ok feature, Except.ok.injEq]
    exact normalizePlaceFun_eq_none_iff feature
  · rw [normalizeAll_eq features, Except.ok.injEq] at h
    subst h
    rw [filterMap_countP_total, List.length_map]
  · rw [normalizeAll_eq fs, Except.ok.injEq] at h1
    rw [normalizeAll_eq gs, Except.ok.injEq] at h2
    subst h1; subst h2
    exact ⟨by rw [normalizeAll_eq, List.map_append], by rw [List.filterMap_append]⟩

/-- Witness for the amended C2 at a concrete one-record input. -/
theorem claim_C2_normalizer_rejection_witness :
    (([some plainRecord] : List (Option PlaceRecord)).filterMap id).length +
      ([some plainRecord] : List (Option PlaceRecord)).countP (fun o => o.isNone) =
      [plainFeature].length :=
  claim_C2_normalizer_rejection.2.1 [plainFeature] [some plainRecord] rfl

/-! ## Batcher lemmas -/

/-- The fuel used by `chunkGo` is irrelevant once it covers the
collection length (the loop advances by at least one element per
iteration when `0 < size`). -/
theorem chunkGo_congr (size : Nat) (hs : 0 < size) :
    ∀ (fuel fuel' : Nat) (xs : List α), xs.length ≤ fuel → xs.length ≤ fuel' →
    chunkGo size fuel xs = chunkGo size fuel' xs := by
  intro fuel
  induction fuel with
  | zero =>
    intro fuel' xs h h'
    have : xs = [] := List.length_eq_zero.mp (Nat.le_zero.mp h)
    subst this
    cases fuel' <;> rfl
  | succ fuel ih =>
    intro fuel' xs h h'
    cases xs with
    | nil => cases fuel' <;> rfl
    | cons x rest =>
      cases fuel' with
      | zero => simp at h'
      | succ fuel' =>
        simp only [chunkGo]
        rw [ih fuel' ((x :: rest).drop size) (by simp only [List.length_drop, List.length_cons] at *; omega) (by simp only [List.length_drop, List.length_cons] at *; omega)]

theorem chunk_nil (size : Nat) : chunk ([] : List α) size = [] := by
  unfold chunk chunkGo
  split <;> rfl

/-- Unfolding equation for `chunk` on a nonempty collection. -/
theorem chunk_cons (size : Nat) (hs : 0 < size) (x : α) (rest : List α) :
    chunk (x :: rest) size =
      (x :: rest).take size :: chunk ((x :: rest).drop size) size := by
  unfold chunk
  rw [if_neg (by omega), if_neg (by omega)]
  show chunkGo size (rest.length + 1) (x :: rest) = _
  simp only [chunkGo]
  rw [chunkGo_congr size hs rest.length ((x :: rest).drop size).length
    ((x :: rest).drop size) (by simp only [List.length_drop, List.length_cons] at *; omega) (by simp)]

/-- The groups produced by `chunk` concatenate back to the collection. -/
theorem chunk_flatten (size : Nat) (hs : 0 < size) (xs : List α) :
    (chunk xs size).flatten = xs := by
  have main : ∀ (n : Nat) (xs : List α), xs.length ≤ n →
      (chunk xs size).flatten = xs := by
    intro n
    induction n with
    | zero =>
      intro xs h
      have : xs = [] := List.length_eq_zero.mp (Nat.le_zero.mp h)
      subst this
      rw [chunk_nil]
      rfl
    | succ n ih =>
      intro xs h
      cases xs with
      | nil => rw [chunk_nil]; rfl
      | cons x rest =>
        rw [chunk_cons size hs, List.flatten_cons,
          ih ((x :: rest).drop size) (by simp only [List.length_drop, List.length_cons] at *; omega),
          List.take_append_drop]
  exact main xs.length xs (Nat.le_refl _)

/-- `chunk` yields the empty grouping only for the empty collection. -/
theorem chunk_eq_nil_iff (size : Nat) (hs : 0 < size) (xs : List α) :
    chunk xs size = [] ↔ xs = [] := by
  cases xs with
  | nil => simp [chunk_nil]
  | cons x rest => rw [chunk_cons size hs]; simp

/-- Every group `chunk` produces is nonempty and no longer than the
batch size. -/
theorem chunk_group_size (size : Nat) (hs : 0 < size) (xs : List α) :
    ∀ g ∈ chunk xs size, 0 < g.length ∧ g.length ≤ size := by
  have main : ∀ (n : Nat) (xs : List α), xs.length ≤ n →
      ∀ g ∈ chunk xs size, 0 < g.length ∧ g.length ≤ size := by
    intro n
    induction n with
    | zero =>
      intro xs h
      have : xs = [] := List.length_eq_zero.mp (Nat.le_zero.mp h)
      subst this
      rw [chunk_nil]
      intro g hg
      simp at hg
    | succ n ih =>
      intro xs h
      cases xs with
      | nil => rw [chunk_nil]; intro g hg; simp at hg
      | cons x rest =>
        rw [chunk_cons size hs]
        intro g hg
        rcases List.mem_cons.mp hg with hg | hg
        · subst hg
          refine ⟨?_, ?_⟩ <;> (simp only [List.length_take, List.length_cons]; omega)
        · exact ih ((x :: rest).drop size) (by simp only [List.length_drop, List.length_cons] at *; omega) g hg
  exact main xs.length xs (Nat.le_refl _)

/-- Every group except possibly the last has exactly the batch size. -/
theorem chunk_group_size_full (size : Nat) (hs : 0 < size) (xs : List α) :
    ∀ g ∈ (chunk xs size).dropLast, g.length = size := by
  have main : ∀ (n : Nat) (xs : List α), xs.length ≤ n →
      ∀ g ∈ (chunk xs size).dropLast, g.length = size := by
    intro n
    induction n with
    | zero =>
      intro xs h
      have : xs = [] := List.length_eq_zero.mp (Nat.le_zero.mp h)
      subst this
      rw [chunk_nil]
      intro g hg
      simp at hg
    | succ n ih =>
      intro xs h
      cases xs with
      | nil => rw [chunk_nil]; intro g hg; simp at hg
      | cons x rest =>
        rw [chunk_cons size hs]
        intro g hg
        by_cases hrest : chunk ((x :: rest).drop size) size = []
        · rw [hrest] at hg
          simp at hg
        · rw [List.dropLast_cons_of_ne_nil hrest] at hg
          rcases List.mem_cons.mp hg with hg | hg
          · subst hg
            have hlt : size < (x :: rest).length := by
              by_contra hc
              refine hrest ((chunk_eq_nil_iff size hs _).mpr ?_)
              rw [List.drop_eq_nil_iff]
              simp only [List.length_cons] at *
              omega
            simp only [List.length_take, List.length_cons] at *
            omega
          · exact ih ((x :: rest).drop size)
              (by simp only [List.length_drop, List.length_cons] at *; omega) g hg
  exact main xs.length xs (Nat.le_refl _)

/-- Number of groups for the script's batch size 100. -/
theorem chunk_length_hundred (xs : List α) :
    (chunk xs CHUNK_SIZE).length = (xs.length + CHUNK_SIZE - 1) / CHUNK_SIZE := by
  have hs : 0 < CHUNK_SIZE := by decide
  have main : ∀ (n : Nat) (xs : List α), xs.length ≤ n →
      (chunk xs CHUNK_SIZE).length = (xs.length + CHUNK_SIZE - 1) / CHUNK_SIZE := by
    intro n
    induction n with
    | zero =>
      intro xs h
      have : xs = [] := List.length_eq_zero.mp (Nat.le_zero.mp h)
      subst this
      rw [chunk_nil]
      simp [CHUNK_SIZE]
    | succ n ih =>
      intro xs h
      cases xs with
      | nil => rw [chunk_nil]; simp [CHUNK_SIZE]
      | cons x rest =>
        rw [chunk_cons CHUNK_SIZE hs, List.length_cons,
          ih ((x :: rest).drop CHUNK_SIZE) (by simp only [List.length_drop, List.length_cons] at *; unfold CHUNK_SIZE at *; omega)]
        simp only [List.length_drop, List.length_cons]
        unfold CHUNK_SIZE
        omega
  exact main xs.length xs (Nat.le_refl _)

/-! ## Claim C4 — the Batcher -/

set_option maxRecDepth 4000 in
/-- C4: for every normalized sequence and batch size `CHUNK_SIZE = 100`,
`chunk` returns `ceil(N/B)` groups, each of size B except possibly the
last which may be smaller (every group is nonempty and no larger than
B), in input order and non-overlapping (their concatenation is the
original sequence); the empty sequence yields zero groups, and 250
records yield exactly 3 batches of sizes 100, 100, 50 in that order. -/
theorem claim_C4_batcher (xs : List PlaceRecord) :
    (chunk xs CHUNK_SIZE).length = (xs.length + CHUNK_SIZE - 1) / CHUNK_SIZE ∧
    (∀ g ∈ (chunk xs CHUNK_SIZE).dropLast, g.length = CHUNK_SIZE) ∧
    (∀ g ∈ chunk xs CHUNK_SIZE, 0 < g.length ∧ g.length ≤ CHUNK_SIZE) ∧
    (chunk xs CHUNK_SIZE).flatten = xs ∧
    chunk ([] : List PlaceRecord) CHUNK_SIZE = [] ∧
    (chunk (List.replicate 250 plainRecord) CHUNK_SIZE).map List.length =
      [100, 100, 50] :=
  ⟨chunk_length_hundred xs,
   chunk_group_size_full CHUNK_SIZE (by decide) xs,
   chunk_group_size CHUNK_SIZE (by decide) xs,
   chunk_flatten CHUNK_SIZE (by decide) xs,
   chunk_nil CHUNK_SIZE,
   rfl⟩

/-- Witness for C4's per-group size bounds at a concrete one-record
sequence (whose single group is the whole sequence). -/
theorem claim_C4_batcher_witness :
    0 < ([plainRecord] : List PlaceRecord).length ∧
    ([plainRecord] : List PlaceRecord).length ≤ CHUNK_SIZE :=
  (claim_C4_batcher [plainRecord]).2.2.1 [plainRecord] (by decide)

/-! ## Graph store lemmas: Place nodes -/

theorem hasPlaceKey_iff (ps : List PlaceNode) (k : JSValue) :
    hasPlaceKey ps k = true ↔ ∃ n ∈ ps, n.googleMapsUrl = k := by
  simp [hasPlaceKey, List.any_eq_true]

theorem placeNodeOf_key (r : PlaceRecord) :
    (placeNodeOf r).googleMapsUrl = r.googleMapsUrl := rfl

theorem overwritePlace_key (r : PlaceRecord) (n : PlaceNode) :
    (overwritePlace r n).googleMapsUrl = n.googleMapsUrl := by
  unfold overwritePlace
  split
  · next h => simp_all [placeNodeOf]
  · rfl

theorem hasPlaceKey_map_overwrite (ps : List PlaceNode) (r : PlaceRecord)
    (k : JSValue) :
    hasPlaceKey (ps.map (overwritePlace r)) k = hasPlaceKey ps k := by
  unfold hasPlaceKey
  induction ps with
  | nil => rfl
  | cons n t ih => simp only [List.map_cons, List.any_cons, overwritePlace_key, ih]

theorem mergeSetPlace_hasKey_self (ps : List PlaceNode) (r : PlaceRecord) :
    hasPlaceKey (mergeSetPlace ps r) r.googleMapsUrl = true := by
  unfold mergeSetPlace
  split
  · next h => rw [hasPlaceKey_map_overwrite]; exact h
  · rw [hasPlaceKey_iff]
    exact ⟨placeNodeOf r, by simp, rfl⟩

theorem mergeSetPlace_hasKey_mono (ps : List PlaceNode) (r : PlaceRecord)
    (k : JSValue) (h : hasPlaceKey ps k = true) :
    hasPlaceKey (mergeSetPlace ps r) k = true := by
  unfold mergeSetPlace
  split
  · rw [hasPlaceKey_map_overwrite]; exact h
  · rw [hasPlaceKey_iff] at h ⊢
    obtain ⟨n, hn, hk⟩ := h
    exact ⟨n, by simp [hn], hk⟩

theorem foldl_mergeSetPlace_hasKey_mono (rs : List PlaceRecord)
    (ps : List PlaceNode) (k : JSValue) (h : hasPlaceKey ps k = true) :
    hasPlaceKey (rs.foldl mergeSetPlace ps) k = true := by
  induction rs generalizing ps with
  | nil => exact h
  | cons r t ih => exact ih _ (mergeSetPlace_hasKey_mono ps r k h)

theorem foldl_mergeSetPlace_hasKey_of_mem (rs : List PlaceRecord)
    (ps : List PlaceNode) (r : PlaceRecord) (h : r ∈ rs) :
    hasPlaceKey (rs.foldl mergeSetPlace ps) r.googleMapsUrl = true := by
  induction rs generalizing ps with
  | nil => simp at h
  | cons x t ih =>
    rcases List.mem_cons.mp h with rfl | h
    · exact foldl_mergeSetPlace_hasKey_mono t _ _ (mergeSetPlace_hasKey_self ps _)
    · exact ih _ h

theorem map_overwrite_id (ps : List PlaceNode) (r : PlaceRecord)
    (h : ∀ n ∈ ps, n.googleMapsUrl = r.googleMapsUrl → n = placeNodeOf r) :
    ps.map (overwritePlace r) = ps := by
  induction ps with
  | nil => rfl
  | cons n t ih =>
    simp only [List.map_cons]
    rw [ih (fun m hm => h m (List.mem_cons_of_mem n hm))]
    have hx := h n (List.mem_cons_self n t)
    unfold overwritePlace
    split
    · next hk => exact congrArg (· :: t) (hx (by simpa using hk)).symm
    · rfl

/-- After an upsert of record `r`, every node carrying `r`'s key holds
exactly the values the `SET` clause wrote. -/
theorem mergeSetPlace_allKey (ps : List PlaceNode) (r : PlaceRecord) :
    ∀ n ∈ mergeSetPlace ps r, n.googleMapsUrl = r.googleMapsUrl →
      n = placeNodeOf r := by
  unfold mergeSetPlace
  split
  · next h =>
    intro n hn hk
    obtain ⟨m, hm, rfl⟩ := List.mem_map.mp hn
    unfold overwritePlace at *
    split at hk
    · next => simp_all
    · next hne => exact absurd (by simpa using hk) (by simpa using hne)
  · next h =>
    intro n hn hk
    rcases List.mem_append.mp hn with hn | hn
    · exact absurd ((hasPlaceKey_iff ps _).mpr ⟨n, hn, hk⟩) (by simp_all)
    · simpa using hn

theorem mergeSetPlace_allKey_preserve (ps : List PlaceNode) (r' : PlaceRecord)
    (k : JSValue) (v : PlaceNode)
    (hne : r'.googleMapsUrl ≠ k)
    (h : ∀ n ∈ ps, n.googleMapsUrl = k → n = v) :
    ∀ n ∈ mergeSetPlace ps r', n.googleMapsUrl = k → n = v := by
  unfold mergeSetPlace
  split
  · intro n hn hk
    obtain ⟨m, hm, rfl⟩ := List.mem_map.mp hn
    rw [overwritePlace_key] at hk
    unfold overwritePlace
    rw [if_neg (by simp only [beq_iff_eq, hk]; exact fun hc => hne hc.symm)]
    exact h m hm hk
  · intro n hn hk
    rcases List.mem_append.mp hn with hn | hn
    · exact h n hn hk
    · simp only [List.mem_singleton] at hn
      subst hn
      exact absurd hk hne

/-- Upserting `x` absorbs a pending overwrite for `r` when both carry
the same key. -/
theorem overwrite_absorb_pt (r x : PlaceRecord)
    (hk : x.googleMapsUrl = r.googleMapsUrl) (n : PlaceNode) :
    overwritePlace x (overwritePlace r n) = overwritePlace x n := by
  by_cases hn : n.googleMapsUrl = r.googleMapsUrl <;>
    simp [overwritePlace, placeNodeOf_key, hn, hk]

theorem overwrite_commute_pt (r x : PlaceRecord)
    (hk : x.googleMapsUrl ≠ r.googleMapsUrl) (n : PlaceNode) :
    overwritePlace x (overwritePlace r n) =
      overwritePlace r (overwritePlace x n) := by
  by_cases hnr : n.googleMapsUrl = r.googleMapsUrl <;>
    by_cases hnx : n.googleMapsUrl = x.googleMapsUrl <;>
      simp_all [overwritePlace, placeNodeOf_key]

theorem overwrite_placeNodeOf (r x : PlaceRecord)
    (hk : x.googleMapsUrl ≠ r.googleMapsUrl) :
    overwritePlace r (placeNodeOf x) = placeNodeOf x := by
  simp [overwritePlace, placeNodeOf_key, hk]

theorem mergeSetPlace_of_hasKey (ps : List PlaceNode) (r : PlaceRecord)
    (h : hasPlaceKey ps r.googleMapsUrl = true) :
    mergeSetPlace ps r = ps.map (overwritePlace r) := by
  unfold mergeSetPlace
  rw [if_pos h]

theorem mergeSetPlace_absorb (ps : List PlaceNode) (r x : PlaceRecord)
    (hk : x.googleMapsUrl = r.googleMapsUrl) :
    mergeSetPlace (ps.map (overwritePlace r)) x = mergeSetPlace ps x := by
  unfold mergeSetPlace
  rw [hasPlaceKey_map_overwrite]
  split
  · next h =>
    rw [List.map_map]
    refine List.map_congr_left (fun n _ => ?_)
    simpa using overwrite_absorb_pt r x hk n
  · next h =>
    rw [map_overwrite_id]
    intro n hn hkey
    exact absurd ((hasPlaceKey_iff ps _).mpr ⟨n, hn, hk ▸ hkey⟩) (by simp_all [hk])

/-- Upserting `x` commutes with a pending overwrite for `r` when their
keys differ. -/
theorem mergeSetPlace_commute (ps : List PlaceNode) (r x : PlaceRecord)
    (hk : x.googleMapsUrl ≠ r.googleMapsUrl) :
    mergeSetPlace (ps.map (overwritePlace r)) x =
      (mergeSetPlace ps x).map (overwritePlace r) := by
  unfold mergeSetPlace
  rw [hasPlaceKey_map_overwrite]
  split
  · next h =>
    rw [List.map_map, List.map_map]
    refine List.map_congr_left (fun n _ => ?_)
    simpa using overwrite_commute_pt r x hk n
  · next h =>
    rw [List.map_append]
    congr 1
    simp only [List.map_singleton]
    rw [overwrite_placeNodeOf r x hk]

/-- A pending overwrite for `r` is absorbed by any later upsert chain
that writes `r`'s key again. -/
theorem foldl_mergeSetPlace_absorb (t : List PlaceRecord) :
    ∀ (ps : List PlaceNode) (r : PlaceRecord),
    (∃ r' ∈ t, r'.googleMapsUrl = r.googleMapsUrl) →
    t.foldl mergeSetPlace (ps.map (overwritePlace r)) = t.foldl mergeSetPlace ps := by
  induction t with
  | nil => intro ps r h; simp at h
  | cons x t ih =>
    intro ps r h
    simp only [List.foldl_cons]
    by_cases hx : x.googleMapsUrl = r.googleMapsUrl
    · rw [mergeSetPlace_absorb ps r x hx]
    · rw [mergeSetPlace_commute ps r x hx]
      refine ih _ r ?_
      obtain ⟨r', hr', hkey⟩ := h
      rcases List.mem_cons.mp hr' with rfl | hr'
      · exact absurd hkey hx
      · exact ⟨r', hr', hkey⟩

theorem foldl_mergeSetPlace_allKey_preserve (t : List PlaceRecord)
    (ps : List PlaceNode) (k : JSValue) (v : PlaceNode)
    (hne : ∀ r' ∈ t, r'.googleMapsUrl ≠ k)
    (h : ∀ n ∈ ps, n.googleMapsUrl = k → n = v) :
    ∀ n ∈ t.foldl mergeSetPlace ps, n.googleMapsUrl = k → n = v := by
  induction t generalizing ps with
  | nil => exact h
  | cons x t ih =>
    simp only [List.foldl_cons]
    exact ih _ (fun r' hr' => hne r' (List.mem_cons_of_mem x hr'))
      (mergeSetPlace_allKey_preserve ps x k v (hne x (List.mem_cons_self x t)) h)

/-- Core idempotence of the Place-node component: replaying an upsert
sequence over its own result changes nothing. -/
theorem foldl_mergeSetPlace_idem (rs : List PlaceRecord) :
    ∀ ps : List PlaceNode,
    rs.foldl mergeSetPlace (rs.foldl mergeSetPlace ps) = rs.foldl mergeSetPlace ps := by
  induction rs with
  | nil => intro ps; rfl
  | cons r t ih =>
    intro ps
    simp only [List.foldl_cons]
    have hKey : hasPlaceKey (t.foldl mergeSetPlace (mergeSetPlace ps r))
        r.googleMapsUrl = true :=
      foldl_mergeSetPlace_hasKey_mono t _ _ (mergeSetPlace_hasKey_self ps r)
    rw [mergeSetPlace_of_hasKey _ r hKey]
    by_cases hex : ∃ r' ∈ t, r'.googleMapsUrl = r.googleMapsUrl
    · rw [foldl_mergeSetPlace_absorb t _ r hex]
      exact ih _
    · push_neg at hex
      rw [map_overwrite_id _ r
        (foldl_mergeSetPlace_allKey_preserve t (mergeSetPlace ps r)
          r.googleMapsUrl (placeNodeOf r) hex (mergeSetPlace_allKey ps r))]
      exact ih _

/-! ## Graph store lemmas: Region nodes and HAS_PLACE edges -/

theorem mergeRegion_mem_mono (regs : List JSValue) (r : PlaceRecord)
    (x : JSValue) (h : x ∈ regs) : x ∈ mergeRegion regs r := by
  unfold mergeRegion
  split
  · exact h
  · split
    · exact h
    · exact List.mem_append_left _ h

theorem mergeRegion_self_mem (regs : List JSValue) (r : PlaceRecord)
    (h : r.prefecture ≠ .null) : r.prefecture ∈ mergeRegion regs r := by
  unfold mergeRegion
  rw [if_neg (by simpa using h)]
  split
  · next hc => exact List.elem_iff.mp hc
  · exact List.mem_append_right _ (List.mem_singleton_self _)

theorem mergeRegion_id (regs : List JSValue) (r : PlaceRecord)
    (h : r.prefecture = .null ∨ r.prefecture ∈ regs) :
    mergeRegion regs r = regs := by
  unfold mergeRegion
  rcases h with h | h
  · rw [if_pos (by simpa using h)]
  · split
    · rfl
    · rw [if_pos (List.elem_iff.mpr h)]

theorem foldl_mergeRegion_mem_mono (rs : List PlaceRecord)
    (regs : List JSValue) (x : JSValue) (h : x ∈ regs) :
    x ∈ rs.foldl mergeRegion regs := by
  induction rs generalizing regs with
  | nil => exact h
  | cons r t ih => exact ih _ (mergeRegion_mem_mono regs r x h)

theorem foldl_mergeRegion_mem_of_mem (rs : List PlaceRecord)
    (regs : List JSValue) (r : PlaceRecord) (hr : r ∈ rs)
    (h : r.prefecture ≠ .null) : r.prefecture ∈ rs.foldl mergeRegion regs := by
  induction rs generalizing regs with
  | nil => simp at hr
  | cons x t ih =>
    rcases List.mem_cons.mp hr with rfl | hr
    · exact foldl_mergeRegion_mem_mono t _ _ (mergeRegion_self_mem regs r h)
    · exact ih _ hr

theorem foldl_mergeRegion_id (rs : List PlaceRecord) (regs : List JSValue)
    (h : ∀ r ∈ rs, r.prefecture = .null ∨ r.prefecture ∈ regs) :
    rs.foldl mergeRegion regs = regs := by
  induction rs with
  | nil => rfl
  | cons r t ih =>
    simp only [List.foldl_cons]
    rw [mergeRegion_id regs r (h r (List.mem_cons_self r t))]
    exact ih (fun x hx => h x (List.mem_cons_of_mem r hx))

theorem foldl_mergeRegion_idem (rs : List PlaceRecord) (regs : List JSValue) :
    rs.foldl mergeRegion (rs.foldl mergeRegion regs) = rs.foldl mergeRegion regs :=
  foldl_mergeRegion_id rs _ (fun r hr => by
    by_cases h : r.prefecture = .null
    · exact Or.inl h
    · exact Or.inr (foldl_mergeRegion_mem_of_mem rs regs r hr h))

theorem mergeHasPlace_mem_mono (es : List (JSValue × JSValue)) (r : PlaceRecord)
    (e : JSValue × JSValue) (h : e ∈ es) : e ∈ mergeHasPlace es r := by
  unfold mergeHasPlace
  split
  · exact h
  · split
    · exact h
    · exact List.mem_append_left _ h

theorem mergeHasPlace_self_mem (es : List (JSValue × JSValue)) (r : PlaceRecord)
    (h : r.prefecture ≠ .null) :
    (r.prefecture, r.googleMapsUrl) ∈ mergeHasPlace es r := by
  unfold mergeHasPlace
  rw [if_neg (by simpa using h)]
  split
  · next hc => exact List.elem_iff.mp hc
  · exact List.mem_append_right _ (List.mem_singleton_self _)

theorem mergeHasPlace_id (es : List (JSValue × JSValue)) (r : PlaceRecord)
    (h : r.prefecture = .null ∨ (r.prefecture, r.googleMapsUrl) ∈ es) :
    mergeHasPlace es r = es := by
  unfold mergeHasPlace
  rcases h with h | h
  · rw [if_pos (by simpa using h)]
  · split
    · rfl
    · rw [if_pos (List.elem_iff.mpr h)]

theorem foldl_mergeHasPlace_mem_mono (rs : List PlaceRecord)
    (es : List (JSValue × JSValue)) (e : JSValue × JSValue) (h : e ∈ es) :
    e ∈ rs.foldl mergeHasPlace es := by
  induction rs generalizing es with
  | nil => exact h
  | cons r t ih => exact ih _ (mergeHasPlace_mem_mono es r e h)

theorem foldl_mergeHasPlace_mem_of_mem (rs : List PlaceRecord)
    (es : List (JSValue × JSValue)) (r : PlaceRecord) (hr : r ∈ rs)
    (h : r.prefecture ≠ .null) :
    (r.prefecture, r.googleMapsUrl) ∈ rs.foldl mergeHasPlace es := by
  induction rs generalizing es with
  | nil => simp at hr
  | cons x t ih =>
    rcases List.mem_cons.mp hr with rfl | hr
    · exact foldl_mergeHasPlace_mem_mono t _ _ (mergeHasPlace_self_mem es r h)
    · exact ih _ hr

theorem foldl_mergeHasPlace_id (rs : List PlaceRecord)
    (es : List (JSValue × JSValue))
    (h : ∀ r ∈ rs, r.prefecture = .null ∨ (r.prefecture, r.googleMapsUrl) ∈ es) :
    rs.foldl mergeHasPlace es = es := by
  induction rs with
  | nil => rfl
  | cons r t ih =>
    simp only [List.foldl_cons]
    rw [mergeHasPlace_id es r (h r (List.mem_cons_self r t))]
    exact ih (fun x hx => h x (List.mem_cons_of_mem r hx))

theorem foldl_mergeHasPlace_idem (rs : List PlaceRecord)
    (es : List (JSValue × JSValue)) :
    rs.foldl mergeHasPlace (rs.foldl mergeHasPlace es) = rs.foldl mergeHasPlace es :=
  foldl_mergeHasPlace_id rs _ (fun r hr => by
    by_cases h : r.prefecture = .null
    · exact Or.inl h
    · exact Or.inr (foldl_mergeHasPlace_mem_of_mem rs es r hr h))

/-! ## Transaction effect: decomposition and idempotence -/

/-- The three store components evolve independently under the upsert
query. -/
theorem runTx_decompose (rs : List PlaceRecord) (s : GraphState) :
    runTx s rs =
      { places := rs.foldl mergeSetPlace s.places
        regions := rs.foldl mergeRegion s.regions
        hasPlaceEdges := rs.foldl mergeHasPlace s.hasPlaceEdges } := by
  induction rs generalizing s with
  | nil => rfl
  | cons r t ih =>
    show runTx (upsertPlaceQuery s r) t = _
    rw [ih]
    rfl

/-- Re-running a whole upsert sequence over its own result leaves the
store unchanged. -/
theorem runTx_idem (s : GraphState) (rs : List PlaceRecord) :
    runTx (runTx s rs) rs = runTx s rs := by
  rw [runTx_decompose rs s, runTx_decompose rs]
  exact GraphState.mk.injEq _ _ _ _ _ _ |>.mpr
    ⟨foldl_mergeSetPlace_idem rs s.places,
     foldl_mergeRegion_idem rs s.regions,
     foldl_mergeHasPlace_idem rs s.hasPlaceEdges⟩

/-! ## Graph writer loop characterization -/

/-- When no batch in range fails, the loop commits every batch in
order, logs one line per batch, and reports no failure. -/
theorem runBatches_all_ok (bf : Nat → Option String) (total : Nat)
    (bs : List (List PlaceRecord)) :
    ∀ (idx : Nat) (s : GraphState), (∀ i < bs.length, bf (idx + i) = none) →
    runBatches bf total idx s bs =
      { state := bs.foldl runTx s
        txIssued := bs.length
        log := (List.range bs.length).map (fun i => insertedBatchLine (idx + i) total)
        failure := none } := by
  induction bs with
  | nil => intro idx s h; rfl
  | cons b t ih =>
    intro idx s h
    have h0 : bf idx = none := by simpa using h 0 (by simp)
    simp only [runBatches, h0]
    rw [ih (idx + 1) (runTx s b) (fun i hi => by
      have := h (i + 1) (by simpa using hi)
      rwa [show idx + (i + 1) = idx + 1 + i by omega] at this)]
    simp only [List.length_cons, List.foldl_cons]
    rw [WriteOutcome.mk.injEq]
    refine ⟨rfl, rfl, ?_, rfl⟩
    rw [List.range_succ_eq_map, List.map_cons, List.map_map]
    refine congrArg (insertedBatchLine idx total :: ·) ?_
    refine List.map_congr_left (fun i _ => ?_)
    simp only [Function.comp_apply]
    rw [show idx + 1 + i = idx + (i + 1) by omega]

/-- When the batch at offset `k` is the first to fail, the loop commits
exactly the first `k` batches, issues `k + 1` transactions, logs one
line per committed batch, and surfaces the failed transaction's
error. -/
theorem runBatches_first_fail (bf : Nat → Option String) (total : Nat)
    (bs : List (List PlaceRecord)) :
    ∀ (idx : Nat) (s : GraphState) (k : Nat) (msg : String), k < bs.length →
    (∀ i < k, bf (idx + i) = none) → bf (idx + k) = some msg →
    runBatches bf total idx s bs =
      { state := (bs.take k).foldl runTx s
        txIssued := k + 1
        log := (List.range k).map (fun i => insertedBatchLine (idx + i) total)
        failure := some msg } := by
  induction bs with
  | nil => intro idx s k msg hk; exact absurd hk (by simp)
  | cons b t ih =>
    intro idx s k msg hk hpre hfail
    cases k with
    | zero =>
      have h0 : bf idx = some msg := by simpa using hfail
      simp only [runBatches, h0]
      rfl
    | succ k =>
      have h0 : bf idx = none := by simpa using hpre 0 (by omega)
      simp only [runBatches, h0]
      rw [ih (idx + 1) (runTx s b) k msg (by simpa using hk)
        (fun i hi => by
          have := hpre (i + 1) (by omega)
          rwa [show idx + (i + 1) = idx + 1 + i by omega] at this)
        (by rwa [show idx + (k + 1) = idx + 1 + k by omega] at hfail)]
      simp only [List.take_succ_cons, List.foldl_cons]
      rw [WriteOutcome.mk.injEq]
      refine ⟨rfl, rfl, ?_, rfl⟩
      rw [List.range_succ_eq_map, List.map_cons, List.map_map]
      refine congrArg (insertedBatchLine idx total :: ·) ?_
      refine List.map_congr_left (fun i _ => ?_)
      simp only [Function.comp_apply]
      rw [show idx + 1 + i = idx + (i + 1) by omega]

/-- The loop reports no failure exactly when no batch in range fails. -/
theorem runBatches_failure_none_iff (bf : Nat → Option String) (total : Nat)
    (bs : List (List PlaceRecord)) :
    ∀ (idx : Nat) (s : GraphState),
    ((runBatches bf total idx s bs).failure = none ↔
      ∀ i < bs.length, bf (idx + i) = none) := by
  induction bs with
  | nil => intro idx s; simp [runBatches]
  | cons b t ih =>
    intro idx s
    match h0 : bf idx with
    | some msg =>
      simp only [runBatches, h0]
      constructor
      · intro h; simp at h
      · intro h
        exact absurd (by simpa using h 0 (by simp)) (by simp [h0])
    | none =>
      simp only [runBatches, h0]
      rw [ih (idx + 1) (runTx s b)]
      constructor
      · intro h i hi
        cases i with
        | zero => simpa using h0
        | succ i =>
          rw [show idx + (i + 1) = idx + 1 + i by omega]
          exact h i (by simpa using hi)
      · intro h i hi
        have := h (i + 1) (by simpa using hi)
        rwa [show idx + (i + 1) = idx + 1 + i by omega] at this

/-- Folding whole batches equals folding the flattened record list. -/
theorem foldl_runTx_flatten (bs : List (List PlaceRecord)) (s : GraphState) :
    bs.foldl runTx s = runTx s bs.flatten := by
  induction bs generalizing s with
  | nil => rfl
  | cons b t ih =>
    simp only [List.foldl_cons, List.flatten_cons]
    rw [ih]
    unfold runTx
    rw [List.foldl_append]

/-- `upsertPlaces` with no failing batch: commits all records in input
order (equivalently, chunking is invisible in the final state). -/
theorem upsertPlaces_all_ok (bf : Nat → Option String) (s : GraphState)
    (places : List PlaceRecord)
    (h : ∀ i < (chunk places CHUNK_SIZE).length, bf i = none) :
    upsertPlaces bf s places =
      { state := runTx s places
        txIssued := (chunk places CHUNK_SIZE).length
        log := (List.range (chunk places CHUNK_SIZE).length).map
          (fun i => insertedBatchLine i (chunk places CHUNK_SIZE).length)
        failure := none } := by
  unfold upsertPlaces
  rw [runBatches_all_ok bf _ _ 0 s (by simpa using h)]
  rw [foldl_runTx_flatten, chunk_flatten CHUNK_SIZE (by decide)]
  simp only [Nat.zero_add]

/-- `upsertPlaces` when batch `k` is the first to fail: exactly the
first `k` batches are committed. -/
theorem upsertPlaces_first_fail (bf : Nat → Option String) (s : GraphState)
    (places : List PlaceRecord) (k : Nat) (msg : String)
    (hk : k < (chunk places CHUNK_SIZE).length)
    (hpre : ∀ i < k, bf i = none) (hfail : bf k = some msg) :
    upsertPlaces bf s places =
      { state := runTx s ((chunk places CHUNK_SIZE).take k).flatten
        txIssued := k + 1
        log := (List.range k).map
          (fun i => insertedBatchLine i (chunk places CHUNK_SIZE).length)
        failure := some msg } := by
  unfold upsertPlaces
  rw [runBatches_first_fail bf _ _ 0 s k msg hk (by simpa using hpre)
    (by simpa using hfail)]
  rw [foldl_runTx_flatten]
  simp only [Nat.zero_add]

/-! ## Node count and lookup lemmas -/

theorem hasPlaceKey_eq_false_iff (ps : List PlaceNode) (k : JSValue) :
    hasPlaceKey ps k = false ↔ ∀ n ∈ ps, n.googleMapsUrl ≠ k := by
  rw [← Bool.not_eq_true, hasPlaceKey_iff]
  simp

theorem countKey_map_overwrite (ps : List PlaceNode) (r : PlaceRecord)
    (k : JSValue) : countKey (ps.map (overwritePlace r)) k = countKey ps k := by
  unfold countKey
  rw [List.countP_map]
  refine List.countP_congr (fun n _ => ?_)
  simp [Function.comp_apply, overwritePlace_key]

theorem countKey_pos_of_hasKey (ps : List PlaceNode) (k : JSValue)
    (h : hasPlaceKey ps k = true) : 0 < countKey ps k := by
  obtain ⟨n, hn, hk⟩ := (hasPlaceKey_iff ps k).mp h
  unfold countKey
  rw [List.countP_pos_iff]
  exact ⟨n, hn, by simpa using hk⟩

theorem countKey_eq_zero_of_not_hasKey (ps : List PlaceNode) (k : JSValue)
    (h : hasPlaceKey ps k = false) : countKey ps k = 0 := by
  unfold countKey
  rw [List.countP_eq_zero]
  intro n hn
  simpa using (hasPlaceKey_eq_false_iff ps k).mp h n hn

theorem countKey_mergeSetPlace (ps : List PlaceNode) (r : PlaceRecord)
    (k : JSValue) :
    countKey (mergeSetPlace ps r) k =
      if r.googleMapsUrl = k ∧ countKey ps k = 0 then 1 else countKey ps k := by
  unfold mergeSetPlace
  split
  · next h =>
    rw [countKey_map_overwrite]
    by_cases hr : r.googleMapsUrl = k
    · rw [if_neg]
      rintro ⟨-, hc⟩
      have := countKey_pos_of_hasKey ps k (hr ▸ h)
      omega
    · rw [if_neg (fun hc => hr hc.1)]
  · next h =>
    have h0 : countKey ps r.googleMapsUrl = 0 :=
      countKey_eq_zero_of_not_hasKey ps _ (by simpa using h)
    unfold countKey at *
    rw [List.countP_append]
    by_cases hr : r.googleMapsUrl = k
    · subst hr
      simp only [List.countP_cons, List.countP_nil]
      simp [placeNodeOf_key, h0]
    · rw [if_neg (fun hc => hr hc.1)]
      have : (List.countP (fun n => n.googleMapsUrl == k) [placeNodeOf r]) = 0 := by
        simp [placeNodeOf_key, hr]
      omega

theorem countKey_foldl_mergeSetPlace (rs : List PlaceRecord) :
    ∀ (ps : List PlaceNode) (k : JSValue),
    countKey (rs.foldl mergeSetPlace ps) k =
      if (∃ r ∈ rs, r.googleMapsUrl = k) ∧ countKey ps k = 0 then 1
      else countKey ps k := by
  induction rs with
  | nil =>
    intro ps k
    rw [if_neg (fun hc => by simpa using hc.1)]
    rfl
  | cons r t ih =>
    intro ps k
    simp only [List.foldl_cons]
    rw [ih (mergeSetPlace ps r) k, countKey_mergeSetPlace ps r k]
    by_cases hr : r.googleMapsUrl = k <;>
      by_cases hc : countKey ps k = 0 <;>
        by_cases ht : ∃ r' ∈ t, r'.googleMapsUrl = k <;>
          simp [hr, hc, ht, List.mem_cons]

theorem findPlace_map_overwrite_self (ps : List PlaceNode) (r : PlaceRecord)
    (h : hasPlaceKey ps r.googleMapsUrl = true) :
    findPlace (ps.map (overwritePlace r)) r.googleMapsUrl =
      some (placeNodeOf r) := by
  induction ps with
  | nil => simp [hasPlaceKey] at h
  | cons n t ih =>
    unfold findPlace
    simp only [List.map_cons]
    by_cases hn : n.googleMapsUrl = r.googleMapsUrl
    · rw [List.find?_cons_of_pos _ (by simp [overwritePlace_key, hn])]
      refine congrArg some ?_
      unfold overwritePlace
      rw [if_pos (by simpa using hn)]
    · rw [List.find?_cons_of_neg _ (by simp [overwritePlace_key, hn])]
      refine ih ?_
      rcases (hasPlaceKey_iff _ _).mp h with ⟨m, hm, hk⟩
      rcases List.mem_cons.mp hm with rfl | hm
      · exact absurd hk hn
      · exact (hasPlaceKey_iff _ _).mpr ⟨m, hm, hk⟩

theorem findPlace_mergeSetPlace_self (ps : List PlaceNode) (r : PlaceRecord) :
    findPlace (mergeSetPlace ps r) r.googleMapsUrl = some (placeNodeOf r) := by
  unfold mergeSetPlace
  split
  · next h => exact findPlace_map_overwrite_self ps r h
  · next h =>
    unfold findPlace
    rw [List.find?_append]
    have : findPlace ps r.googleMapsUrl = none := by
      unfold findPlace
      rw [List.find?_eq_none]
      intro n hn
      simpa using (hasPlaceKey_eq_false_iff ps _).mp (by simpa using h) n hn
    unfold findPlace at this
    rw [this]
    simp [placeNodeOf_key]

theorem findPlace_map_overwrite_other (ps : List PlaceNode) (r : PlaceRecord)
    (k : JSValue) (hk : k ≠ r.googleMapsUrl) :
    List.find? (fun n => n.googleMapsUrl == k) (ps.map (overwritePlace r)) =
      List.find? (fun n => n.googleMapsUrl == k) ps := by
  induction ps with
  | nil => rfl
  | cons n t ih =>
    simp only [List.map_cons]
    by_cases hn : n.googleMapsUrl = k
    · rw [List.find?_cons_of_pos _ (by simp [overwritePlace_key, hn]),
        List.find?_cons_of_pos _ (by simpa using hn)]
      refine congrArg some ?_
      unfold overwritePlace
      rw [if_neg (by simp only [beq_iff_eq, hn]; exact fun hc => hk hc)]
    · rw [List.find?_cons_of_neg _ (by simp [overwritePlace_key, hn]),
        List.find?_cons_of_neg _ (by simpa using hn)]
      exact ih

theorem findPlace_mergeSetPlace_other (ps : List PlaceNode) (r : PlaceRecord)
    (k : JSValue) (hk : k ≠ r.googleMapsUrl) :
    findPlace (mergeSetPlace ps r) k = findPlace ps k := by
  unfold mergeSetPlace
  split
  · exact findPlace_map_overwrite_other ps r k hk
  · unfold findPlace
    rw [List.find?_append]
    have hnone : List.find? (fun n => n.googleMapsUrl == k) [placeNodeOf r] = none := by
      rw [List.find?_eq_none]
      intro n hn
      simp only [List.mem_singleton] at hn
      subst hn
      simp only [placeNodeOf_key, beq_iff_eq]
      exact fun hc => hk hc.symm
    rw [hnone]
    simp

theorem lastWith_cons (r : PlaceRecord) (t : List PlaceRecord) (k : JSValue) :
    lastWith (r :: t) k =
      match lastWith t k with
      | some r' => some r'
      | none => if r.googleMapsUrl = k then some r else none := rfl

theorem findPlace_foldl_mergeSetPlace (rs : List PlaceRecord) :
    ∀ (ps : List PlaceNode) (k : JSValue),
    findPlace (rs.foldl mergeSetPlace ps) k =
      match lastWith rs k with
      | some r => some (placeNodeOf r)
      | none => findPlace ps k := by
  induction rs with
  | nil => intro ps k; rfl
  | cons r t ih =>
    intro ps k
    simp only [List.foldl_cons]
    rw [ih (mergeSetPlace ps r) k, lastWith_cons]
    cases ht : lastWith t k with
    | some r' => simp [ht]
    | none =>
      simp only [ht]
      by_cases hr : r.googleMapsUrl = k
      · rw [if_pos hr, ← hr, findPlace_mergeSetPlace_self ps r]
      · rw [if_neg hr, findPlace_mergeSetPlace_other ps r k (fun hc => hr hc.symm)]

/-! ## Claim C5 — region node and containment edge -/

/-- C5: for every record written by the Graph Writer, a Region node
named by the record's prefecture and a `HAS_PLACE` edge from that Region
to the Place are ensured if and only if the prefecture value is
non-null: a null prefecture leaves both the region set and the edge set
untouched; a fresh record with no region yields a Place node with no
incoming edge; and re-running the same upsert creates no duplicate edge
for the (Region, Place) pair. -/
theorem claim_C5_region_edge :
    (∀ (s : GraphState) (r : PlaceRecord), r.prefecture ≠ .null →
      r.prefecture ∈ (upsertPlaceQuery s r).regions ∧
      (r.prefecture, r.googleMapsUrl) ∈ (upsertPlaceQuery s r).hasPlaceEdges) ∧
    (∀ (s : GraphState) (r : PlaceRecord), r.prefecture = .null →
      (upsertPlaceQuery s r).regions = s.regions ∧
      (upsertPlaceQuery s r).hasPlaceEdges = s.hasPlaceEdges) ∧
    (∀ r : PlaceRecord, r.prefecture = .null →
      (upsertPlaceQuery GraphState.empty r).places = [placeNodeOf r] ∧
      (upsertPlaceQuery GraphState.empty r).hasPlaceEdges = []) ∧
    (∀ (s : GraphState) (r : PlaceRecord),
      (upsertPlaceQuery (upsertPlaceQuery s r) r).hasPlaceEdges =
        (upsertPlaceQuery s r).hasPlaceEdges ∧
      (upsertPlaceQuery (upsertPlaceQuery s r) r).regions =
        (upsertPlaceQuery s r).regions) := by
  refine ⟨fun s r h => ⟨mergeRegion_self_mem s.regions r h,
      mergeHasPlace_self_mem s.hasPlaceEdges r h⟩,
    fun s r h => ⟨mergeRegion_id s.regions r (Or.inl h),
      mergeHasPlace_id s.hasPlaceEdges r (Or.inl h)⟩,
    fun r h => ?_,
    fun s r => ?_⟩
  · constructor
    · show mergeSetPlace [] r = [placeNodeOf r]
      unfold mergeSetPlace hasPlaceKey
      simp
    · show mergeHasPlace [] r = []
      unfold mergeHasPlace
      rw [if_pos (by simpa using h)]
  · constructor
    · show mergeHasPlace (mergeHasPlace s.hasPlaceEdges r) r =
        mergeHasPlace s.hasPlaceEdges r
      by_cases h : r.prefecture = .null
      · exact mergeHasPlace_id _ r (Or.inl h)
      · exact mergeHasPlace_id _ r (Or.inr (mergeHasPlace_self_mem _ r h))
    · show mergeRegion (mergeRegion s.regions r) r = mergeRegion s.regions r
      by_cases h : r.prefecture = .null
      · exact mergeRegion_id _ r (Or.inl h)
      · exact mergeRegion_id _ r (Or.inr (mergeRegion_self_mem _ r h))

/-- Witness for C5 at a concrete record with a region value. -/
theorem claim_C5_region_edge_witness :
    sampleRecord.prefecture ∈
      (upsertPlaceQuery GraphState.empty sampleRecord).regions :=
  (claim_C5_region_edge.1 GraphState.empty sampleRecord (by decide)).1

/-! ## Claim C6 — whole-record replace, last write wins -/

/-- C6: each Place upsert overwrites every attribute of the node for the
record's key unconditionally, whatever the store held before (the node
becomes exactly `placeNodeOf r`, including null for absent attributes);
and for a run over any record sequence from an empty store, a key that
occurs in the sequence owns exactly one node, whose attributes are those
of the last record carrying that key (records are written in input
order), and a key that does not occur owns none. -/
theorem claim_C6_last_write_wins :
    (∀ (s : GraphState) (r : PlaceRecord),
      findPlace ((upsertPlaceQuery s r).places) r.googleMapsUrl =
        some (placeNodeOf r)) ∧
    (∀ (rs : List PlaceRecord) (k : JSValue),
      countKey ((runTx GraphState.empty rs).places) k =
        if ∃ r ∈ rs, r.googleMapsUrl = k then 1 else 0) ∧
    (∀ (rs : List PlaceRecord) (k : JSValue),
      findPlace ((runTx GraphState.empty rs).places) k =
        (lastWith rs k).map placeNodeOf) := by
  refine ⟨fun s r => findPlace_mergeSetPlace_self s.places r,
    fun rs k => ?_, fun rs k => ?_⟩
  · rw [runTx_decompose]
    show countKey (rs.foldl mergeSetPlace []) k = _
    rw [countKey_foldl_mergeSetPlace rs [] k]
    by_cases h : ∃ r ∈ rs, r.googleMapsUrl = k
    · rw [if_pos ⟨h, rfl⟩, if_pos h]
    · rw [if_neg (fun hc => h hc.1), if_neg h]
      rfl
  · rw [runTx_decompose]
    show findPlace (rs.foldl mergeSetPlace []) k = _
    rw [findPlace_foldl_mergeSetPlace rs [] k]
    cases lastWith rs k <;> rfl

/-! ## Claim C7 — batch transactions: atomic, fail-fast, prefix-committed -/

/-- C7: each batch runs as one atomic transaction.  If no batch fails,
every batch commits, one transaction per batch, and the final state is
exactly the fold of all records (chunking is invisible).  If batch `k`
is the first to fail, the run stops having issued exactly `k + 1`
transactions (the failed one is attempted exactly once — no retry, no
further batch), the failure is surfaced, batches `0..k-1` remain
committed, and the failed batch leaves no partial effect: the state is
exactly the fold of the first `k` batches. -/
theorem claim_C7_batch_transactions (bf : Nat → Option String)
    (s : GraphState) (places : List PlaceRecord) :
    ((∀ i < (chunk places CHUNK_SIZE).length, bf i = none) →
      (upsertPlaces bf s places).failure = none ∧
      (upsertPlaces bf s places).txIssued = (chunk places CHUNK_SIZE).length ∧
      (upsertPlaces bf s places).state = runTx s places) ∧
    (∀ (k : Nat) (msg : String), k < (chunk places CHUNK_SIZE).length →
      (∀ i < k, bf i = none) → bf k = some msg →
      (upsertPlaces bf s places).failure = some msg ∧
      (upsertPlaces bf s places).txIssued = k + 1 ∧
      (upsertPlaces bf s places).state =
        runTx s ((chunk places CHUNK_SIZE).take k).flatten) := by
  constructor
  · intro h
    rw [upsertPlaces_all_ok bf s places h]
    exact ⟨rfl, rfl, rfl⟩
  · intro k msg hk hpre hfail
    rw [upsertPlaces_first_fail bf s places k msg hk hpre hfail]
    exact ⟨rfl, rfl, rfl⟩

set_option maxRecDepth 8000 in
/-- Witness for C7 at a concrete two-batch run whose second batch
fails. -/
theorem claim_C7_batch_transactions_witness :
    (upsertPlaces (fun i => if i = 1 then some "boom" else none)
      GraphState.empty (List.replicate 150 plainRecord)).failure = some "boom" :=
  ((claim_C7_batch_transactions (fun i => if i = 1 then some "boom" else none)
    GraphState.empty (List.replicate 150 plainRecord)).2 1 "boom"
    (by decide) (by decide) (by decide)).1

/-! ## Orchestrator characterization -/

theorem upsertPlaces_failure_none_iff (bf : Nat → Option String)
    (s : GraphState) (places : List PlaceRecord) :
    (upsertPlaces bf s places).failure = none ↔
      ∀ i < (chunk places CHUNK_SIZE).length, bf i = none := by
  unfold upsertPlaces
  rw [runBatches_failure_none_iff bf _ _ 0 s]
  simp

theorem mainRun_load_error (e : String) (cfails bfails : Nat → Option String)
    (s0 : GraphState) :
    mainRun (.error e) cfails bfails s0 =
      { exitCode := 1, stmtsIssued := 0, txIssued := 0, state := s0
        log := [loadingLine, seedingFailedLine e] } := rfl

theorem mainRun_access_error (payload : JSValue) (e : String)
    (cfails bfails : Nat → Option String) (s0 : GraphState)
    (hacc : payload.access "features" = .error e) :
    mainRun (.ok payload) cfails bfails s0 =
      { exitCode := 1, stmtsIssued := 0, txIssued := 0, state := s0
        log := [loadingLine, seedingFailedLine e] } := by
  simp only [mainRun, hacc]

theorem mainRun_noop (payload fv : JSValue)
    (cfails bfails : Nat → Option String) (s0 : GraphState)
    (hacc : payload.access "features" = .ok fv)
    (hempty : (((if fv.isArray then fv.items else []).map
      normalizePlaceFun).filterMap id) = []) :
    mainRun (.ok payload) cfails bfails s0 =
      { exitCode := 0, stmtsIssued := 0, txIssued := 0, state := s0
        log := [loadingLine, noPlacesLine] } := by
  simp only [mainRun, hacc, normalizeAll_eq, hempty]
  rfl

theorem mainRun_constraint_fail (payload fv : JSValue)
    (cfails bfails : Nat → Option String) (s0 : GraphState) (msg : String)
    (hacc : payload.access "features" = .ok fv)
    (hne : (((if fv.isArray then fv.items else []).map
      normalizePlaceFun).filterMap id) ≠ [])
    (hc : (ensureConstraints cfails).snd = some msg) :
    mainRun (.ok payload) cfails bfails s0 =
      { exitCode := 1, stmtsIssued := (ensureConstraints cfails).fst
        txIssued := 0, state := s0
        log := [loadingLine, preparingLine, seedingFailedLine msg] } := by
  have hfalse : (((if fv.isArray then fv.items else []).map
      normalizePlaceFun).filterMap id).isEmpty = false := by
    rw [← Bool.not_eq_true, List.isEmpty_iff]
    exact hne
  simp only [mainRun, hacc, normalizeAll_eq, hfalse, Bool.false_eq_true,
    if_false, hc]

theorem mainRun_write_branch (payload fv : JSValue)
    (cfails bfails : Nat → Option String) (s0 : GraphState)
    (hacc : payload.access "features" = .ok fv)
    (hne : (((if fv.isArray then fv.items else []).map
      normalizePlaceFun).filterMap id) ≠ [])
    (hc : (ensureConstraints cfails).snd = none) :
    mainRun (.ok payload) cfails bfails s0 =
      (let normalized := ((if fv.isArray then fv.items else []).map
        normalizePlaceFun).filterMap id
      let w := upsertPlaces bfails s0 normalized
      match w.failure with
      | some msg =>
        { exitCode := 1, stmtsIssued := (ensureConstraints cfails).fst
          txIssued := w.txIssued, state := w.state
          log := loadingLine :: preparingLine :: seedingLine normalized.length ::
            (w.log ++ [seedingFailedLine msg]) }
      | none =>
        { exitCode := 0, stmtsIssued := (ensureConstraints cfails).fst
          txIssued := w.txIssued, state := w.state
          log := loadingLine :: preparingLine :: seedingLine normalized.length ::
            (w.log ++ [completedLine]) }) := by
  have hfalse : (((if fv.isArray then fv.items else []).map
      normalizePlaceFun).filterMap id).isEmpty = false := by
    rw [← Bool.not_eq_true, List.isEmpty_iff]
    exact hne
  simp only [mainRun, hacc, normalizeAll_eq, hfalse, Bool.false_eq_true,
    if_false, hc]

/-! ## Claim C1 — idempotence under re-ingestion -/

/-- C1: re-ingesting identical input is a no-op.  First, replaying any
upsert sequence over its own result leaves the store unchanged (MERGE
plus unconditional SET updates each keyed Place in place and never
creates a duplicate, and region/edge MERGEs are create-if-absent).
Second, at pipeline level: whenever a run completes with exit code 0, a
second `main` run over the same input and oracles, started from the
store state the first run produced, leaves the store state exactly as
the first run left it. -/
theorem claim_C1_idempotent_reingestion :
    (∀ (s : GraphState) (rs : List PlaceRecord),
      runTx (runTx s rs) rs = runTx s rs) ∧
    (∀ (load : Except String JSValue) (cfails bfails : Nat → Option String)
      (s0 : GraphState),
      (mainRun load cfails bfails s0).exitCode = 0 →
      (mainRun load cfails bfails (mainRun load cfails bfails s0).state).state =
        (mainRun load cfails bfails s0).state) := by
  refine ⟨runTx_idem, fun load cfails bfails s0 h => ?_⟩
  cases load with
  | error e => rw [mainRun_load_error] at h; simp at h
  | ok payload =>
    cases hacc : payload.access "features" with
    | error e => rw [mainRun_access_error payload e cfails bfails s0 hacc] at h; simp at h
    | ok fv =>
      by_cases hemp : (((if fv.isArray then fv.items else []).map
          normalizePlaceFun).filterMap id) = []
      · have hno := fun st => mainRun_noop payload fv cfails bfails st hacc hemp
        simp only [hno]
      · cases hc : (ensureConstraints cfails).snd with
        | some msg =>
          rw [mainRun_constraint_fail payload fv cfails bfails s0 msg hacc hemp hc] at h
          simp at h
        | none =>
          have hwb := fun st => mainRun_write_branch payload fv cfails bfails st hacc hemp hc
          cases hw : (upsertPlaces bfails s0 (((if fv.isArray then fv.items
              else []).map normalizePlaceFun).filterMap id)).failure with
          | some msg =>
            rw [hwb s0] at h
            simp only [hw] at h
            simp at h
          | none =>
            have hall := (upsertPlaces_failure_none_iff bfails s0 _).mp hw
            have w1 := upsertPlaces_all_ok bfails s0 _ hall
            have w2 := upsertPlaces_all_ok bfails
              (runTx s0 (((if fv.isArray then fv.items else []).map
                normalizePlaceFun).filterMap id)) _ hall
            simp only [hwb s0, w1]
            simp only [hwb _, w2, runTx_idem]

set_option maxRecDepth 8000 in
/-- Witness for C1's pipeline-level idempotence at a concrete successful
one-record run. -/
theorem claim_C1_idempotent_reingestion_witness :
    (mainRun (.ok payloadSingle) (fun _ => none) (fun _ => none)
      (mainRun (.ok payloadSingle) (fun _ => none) (fun _ => none)
        GraphState.empty).state).state =
    (mainRun (.ok payloadSingle) (fun _ => none) (fun _ => none)
      GraphState.empty).state :=
  claim_C1_idempotent_reingestion.2 (.ok payloadSingle)
    (fun _ => none) (fun _ => none) GraphState.empty (by decide)

/-! ## Claim C8 — process exit behavior -/

/-- C8: the process exits 0 on a fully successful run and on the
empty-input no-op (an empty or absent feature collection yields the
no-op outcome with zero write transactions and zero constraint
statements), and exits non-zero when the load throws, when the
feature access throws, when constraint initialization fails, or when a
batch write fails. -/
theorem claim_C8_exit_codes :
    (∀ (e : String) (cfails bfails : Nat → Option String) (s0 : GraphState),
      (mainRun (.error e) cfails bfails s0).exitCode = 1) ∧
    (∀ (payload : JSValue) (e : String) (cfails bfails : Nat → Option String)
      (s0 : GraphState), payload.access "features" = .error e →
      (mainRun (.ok payload) cfails bfails s0).exitCode = 1) ∧
    (∀ (payload fv : JSValue) (cfails bfails : Nat → Option String)
      (s0 : GraphState), payload.access "features" = .ok fv →
      (((if fv.isArray then fv.items else []).map
        normalizePlaceFun).filterMap id) = [] →
      mainRun (.ok payload) cfails bfails s0 =
        { exitCode := 0, stmtsIssued := 0, txIssued := 0, state := s0
          log := [loadingLine, noPlacesLine] }) ∧
    (∀ (payload fv : JSValue) (cfails bfails : Nat → Option String)
      (s0 : GraphState) (msg : String), payload.access "features" = .ok fv →
      (((if fv.isArray then fv.items else []).map
        normalizePlaceFun).filterMap id) ≠ [] →
      (ensureConstraints cfails).snd = some msg →
      (mainRun (.ok payload) cfails bfails s0).exitCode = 1 ∧
      (mainRun (.ok payload) cfails bfails s0).txIssued = 0) ∧
    (∀ (payload fv : JSValue) (cfails bfails : Nat → Option String)
      (s0 : GraphState) (msg : String), payload.access "features" = .ok fv →
      (((if fv.isArray then fv.items else []).map
        normalizePlaceFun).filterMap id) ≠ [] →
      (ensureConstraints cfails).snd = none →
      (upsertPlaces bfails s0 (((if fv.isArray then fv.items else []).map
        normalizePlaceFun).filterMap id)).failure = some msg →
      (mainRun (.ok payload) cfails bfails s0).exitCode = 1) ∧
    (∀ (payload fv : JSValue) (cfails bfails : Nat → Option String)
      (s0 : GraphState), payload.access "features" = .ok fv →
      (((if fv.isArray then fv.items else []).map
        normalizePlaceFun).filterMap id) ≠ [] →
      (ensureConstraints cfails).snd = none →
      (upsertPlaces bfails s0 (((if fv.isArray then fv.items else []).map
        normalizePlaceFun).filterMap id)).failure = none →
      (mainRun (.ok payload) cfails bfails s0).exitCode = 0) := by
  refine ⟨fun e cfails bfails s0 => by rw [mainRun_load_error],
    fun payload e cfails bfails s0 hacc => by
      rw [mainRun_access_error payload e cfails bfails s0 hacc],
    fun payload fv cfails bfails s0 hacc hempty =>
      mainRun_noop payload fv cfails bfails s0 hacc hempty,
    fun payload fv cfails bfails s0 msg hacc hne hc => by
      rw [mainRun_constraint_fail payload fv cfails bfails s0 msg hacc hne hc]
      exact ⟨rfl, rfl⟩,
    fun payload fv cfails bfails s0 msg hacc hne hc hw => by
      rw [mainRun_write_branch payload fv cfails bfails s0 hacc hne hc]
      simp only [hw],
    fun payload fv cfails bfails s0 hacc hne hc hw => by
      rw [mainRun_write_branch payload fv cfails bfails s0 hacc hne hc]
      simp only [hw]⟩

/-- Witness for C8's no-op conjunct: a payload with no `features` field
runs to completion with exit code 0, zero transactions and zero
constraint statements. -/
theorem claim_C8_exit_codes_witness :
    mainRun (.ok (.obj [])) (fun _ => none) (fun _ => none) GraphState.empty =
      { exitCode := 0, stmtsIssued := 0, txIssued := 0
        state := GraphState.empty, log := [loadingLine, noPlacesLine] } :=
  claim_C8_exit_codes.2.2.1 (.obj []) .undefined (fun _ => none) (fun _ => none)
    GraphState.empty rfl rfl

/-! ## Claim C9 — failure propagation and error context -/

set_option maxRecDepth 20000 in
/-- C9 counterexample: the terminating error report alone does not
identify the failing batch.  Two runs over the same 101-record input,
one whose first batch fails and one whose second batch fails (with the
same store error message), print exactly the same terminating line;
they are distinguished only by the earlier per-batch progress lines
(equivalently, by the number of transactions issued: 1 versus 2). -/
theorem claim_C9_counterexample :
    (mainRun (.ok payload101) (fun _ => none)
        (fun i => if i = 0 then some "boom" else none)
        GraphState.empty).log.getLast? =
      (mainRun (.ok payload101) (fun _ => none)
        (fun i => if i = 1 then some "boom" else none)
        GraphState.empty).log.getLast? ∧
    (mainRun (.ok payload101) (fun _ => none)
        (fun i => if i = 0 then some "boom" else none)
        GraphState.empty).exitCode = 1 ∧
    (mainRun (.ok payload101) (fun _ => none)
        (fun i => if i = 0 then some "boom" else none)
        GraphState.empty).txIssued = 1 ∧
    (mainRun (.ok payload101) (fun _ => none)
        (fun i => if i = 1 then some "boom" else none)
        GraphState.empty).txIssued = 2 :=
  ⟨rfl, rfl, rfl, rfl⟩

/-- C9 (amended): every failure in a store-facing stage is propagated,
not swallowed (the run ends with exit code 1 and the error message in
the terminating line), and the full console output — though not the
terminating line alone — identifies the failing stage and batch: a
constraint failure prints no "Seeding …" line, while a batch-write
failure at batch `k` prints the "Seeding …" line followed by exactly
`k` per-batch success lines (so its log has exactly `k + 4` lines)
before the terminating error line. -/
theorem claim_C9_failure_reporting :
    (∀ (payload fv : JSValue) (cfails bfails : Nat → Option String)
      (s0 : GraphState) (msg : String), payload.access "features" = .ok fv →
      (((if fv.isArray then fv.items else []).map
        normalizePlaceFun).filterMap id) ≠ [] →
      (ensureConstraints cfails).snd = some msg →
      mainRun (.ok payload) cfails bfails s0 =
        { exitCode := 1, stmtsIssued := (ensureConstraints cfails).fst
          txIssued := 0, state := s0
          log := [loadingLine, preparingLine, seedingFailedLine msg] }) ∧
    (∀ (payload fv : JSValue) (cfails bfails : Nat → Option String)
      (s0 : GraphState) (k : Nat) (msg : String),
      payload.access "features" = .ok fv →
      (((if fv.isArray then fv.items else []).map
        normalizePlaceFun).filterMap id) ≠ [] →
      (ensureConstraints cfails).snd = none →
      k < (chunk (((if fv.isArray then fv.items else []).map
        normalizePlaceFun).filterMap id) CHUNK_SIZE).length →
      (∀ i < k, bfails i = none) → bfails k = some msg →
      (mainRun (.ok payload) cfails bfails s0).exitCode = 1 ∧
      (mainRun (.ok payload) cfails bfails s0).log.length = k + 4 ∧
      (mainRun (.ok payload) cfails bfails s0).log.getLast? =
        some (seedingFailedLine msg) ∧
      seedingLine ((((if fv.isArray then fv.items else []).map
        normalizePlaceFun).filterMap id).length) ∈
        (mainRun (.ok payload) cfails bfails s0).log) := by
  refine ⟨fun payload fv cfails bfails s0 msg hacc hne hc =>
    mainRun_constraint_fail payload fv cfails bfails s0 msg hacc hne hc,
    fun payload fv cfails bfails s0 k msg hacc hne hc hk hpre hfail => ?_⟩
  rw [mainRun_write_branch payload fv cfails bfails s0 hacc hne hc]
  dsimp only
  rw [upsertPlaces_first_fail bfails s0 _ k msg hk hpre hfail]
  refine ⟨rfl, ?_, ?_, ?_⟩
  · simp
  · show (loadingLine :: preparingLine :: seedingLine _ ::
      ((List.range k).map _ ++ [seedingFailedLine msg])).getLast? = _
    rw [← List.cons_append, ← List.cons_append, ← List.cons_append,
      List.getLast?_concat]
  · exact List.mem_cons_of_mem _ (List.mem_cons_of_mem _ (List.mem_cons_self _ _))

set_option maxRecDepth 20000 in
/-- Witness for the amended C9 at a concrete 101-record run whose first
batch fails. -/
theorem claim_C9_failure_reporting_witness :
    (mainRun (.ok payload101) (fun _ => none)
      (fun i => if i = 0 then some "boom" else none)
      GraphState.empty).log.getLast? = some (seedingFailedLine "boom") :=
  ((claim_C9_failure_reporting.2 payload101 (JSValue.arr (List.replicate 101 plainFeature))
    (fun _ => none) (fun i => if i = 0 then some "boom" else none)
    GraphState.empty 0 "boom" rfl (by decide) rfl (by decide)
    (by omega) rfl).2.2.1)
